import Mathlib

/-!
# Verification of the bandlimited-interpolation resampler `bi.c`

This file is a shallow embedding of the C program `bi.c` (a sample-rate
converter based on Julius O. Smith's bandlimited interpolation) together
with proofs about that embedding.

Modelling conventions:
* C `double` values are modelled as real numbers (`ℝ`); floating-point
  rounding is not modelled.  All refutations below are robust: the gaps
  exhibited are many orders of magnitude larger than double rounding.
* C integer values are modelled as `ℕ`/`ℤ`; conversion of a `double` to an
  integer type (which C truncates toward zero) is modelled by `rtz`.
* Arrays are modelled as functions or as `List`s; the audio-file I/O
  boundary (libsndfile) is modelled by its observable effect: the sample
  data handed to the program (`dat`) and the frames handed to write calls.
-/

/-- Word length of stored impulse-response samples: `sizeof(short) * 8`. -/
def n_c : ℕ := 16

/-- Word length of `n`: `sizeof(short) * 8`. -/
def n_n : ℕ := 16

/-- `n_l = 1 + n_c / 2` (bits of filter-table resolution). -/
def n_l : ℕ := 1 + n_c / 2

/-- `N = 1 << n_n` (declared in `bi_resamp`; never used afterwards). -/
def bufN : ℕ := 2 ^ n_n

/-- `L = 1 << n_l`: filter-table samples per zero-crossing. -/
def L : ℕ := 2 ^ n_l

/-- `N_z = 5`: number of zero-crossings represented by the table. -/
def N_z : ℕ := 5

/-- `N_h = L * N_z + 1`: filter-table length. -/
def N_h : ℕ := L * N_z + 1

/-- The term added by iteration `i` of the loop in `bessel_i0`:
`pow(x / 2.0, i * 2) / pow(ifac, 2)` where `ifac = i!`
(the loop maintains `ifac` as the factorial of the loop counter). -/
noncomputable def besselTerm (x : ℝ) (i : ℕ) : ℝ :=
  (x / 2) ^ (i * 2) / (Nat.factorial i : ℝ) ^ 2

/-- The first loop counter value `i ≥ 1` at which `bessel_i0`'s loop breaks,
i.e. the first `i` whose term falls below the `1.0e-21` threshold. -/
noncomputable def besselStop (x : ℝ) : ℕ :=
  sInf {i : ℕ | 1 ≤ i ∧ besselTerm x i < 1e-21}

/-- `bessel_i0 x`: the value returned by the C function `bessel_i0`:
`1` plus all terms accumulated before the loop breaks. -/
noncomputable def bessel_i0 (x : ℝ) : ℝ :=
  1 + ∑ k in Finset.Ico 1 (besselStop x), besselTerm x k

/-- `kaiser alpha M n`: the C function `kaiser` (Kaiser window at point `n`
with shape `alpha` and length `M + 1`). -/
noncomputable def kaiser (alpha M n : ℝ) : ℝ :=
  if n < 0 ∨ n > M then 0
  else bessel_i0 (alpha * Real.sqrt (1 - (2 * n / M - 1) ^ 2)) / bessel_i0 alpha

/-- The `dB > 50` branch formula of `kaiser_dB`. -/
noncomputable def kaiser_dB_high (dB : ℝ) : ℝ := 0.1102 * (dB - 8.7)

/-- The `21 ≤ dB ≤ 50` branch formula of `kaiser_dB`. -/
noncomputable def kaiser_dB_mid (dB : ℝ) : ℝ :=
  0.5842 * (dB - 21) ^ (0.4 : ℝ) + 0.07886 * (dB - 21)

/-- The `dB < 21` branch formula of `kaiser_dB`. -/
noncomputable def kaiser_dB_low (_dB : ℝ) : ℝ := 0

/-- `kaiser_dB dB`: the C function `kaiser_dB` mapping a sidelobe
attenuation to the Kaiser shape parameter. -/
noncomputable def kaiser_dB (dB : ℝ) : ℝ :=
  if dB > 50 then kaiser_dB_high dB
  else if dB ≥ 21 then kaiser_dB_mid dB
  else kaiser_dB_low dB

/-- `kaiser_table alpha len` (lines 68-82): entry `i` is
`kaiser(alpha, M, len - i - 1)` with `M = (len - 1) * 2`. -/
noncomputable def kaiser_table (alpha : ℝ) (len : ℕ) : ℕ → ℝ :=
  fun i => kaiser alpha (((len : ℝ) - 1) * 2) ((len : ℝ) - i - 1)

/-- Final value of filter-table entry `h[i]` after lines 158-167: the
Kaiser-table entry multiplied (for `i ≥ 1`) by the normalized sinc
`sin(i/L*π) / (i/L*π)`, with `h[0]` overwritten to exactly `1.0`. -/
noncomputable def hFun (alpha : ℝ) (len : ℕ) : ℕ → ℝ := fun i =>
  if i = 0 then 1
  else kaiser_table alpha len i *
    (Real.sin ((i : ℝ) / L * Real.pi) / ((i : ℝ) / L * Real.pi))

/-- Final value of forward-difference entry `hb[i]` after lines 169-174:
`hb[i] = h[i+1] - h[i]` for `i < len - 1`, and `hb[len-1] = 0`. -/
noncomputable def hbFun (alpha : ℝ) (len : ℕ) : ℕ → ℝ := fun i =>
  if i = len - 1 then 0 else hFun alpha len (i + 1) - hFun alpha len i

/-- The filter table `h` as the array of length `len` the code allocates. -/
noncomputable def hTable (alpha : ℝ) (len : ℕ) : List ℝ :=
  List.ofFn (fun i : Fin len => hFun alpha len i)

/-- The forward-difference table `hb` as built by the two writes of lines
172-174: the loop fills indices `0 .. len-2` with `h[i+1] - h[i]`, then the
final entry is set to `0`. -/
noncomputable def hbTable (alpha : ℝ) (len : ℕ) : List ℝ :=
  ((List.range (len - 1)).map fun i => hFun alpha len (i + 1) - hFun alpha len i)
    ++ [0]

/-- Truncation toward zero: the C conversion of a `double` to an integer
type (used for `n`, `l` and the `short` accumulator `v`). -/
noncomputable def rtz (r : ℝ) : ℤ := if 0 ≤ r then ⌊r⌋ else -⌊-r⌋

/-- `extra` (line 133): padding length, `ceil(N_z*Fs/Fsp)` when
downsampling (`rho = Fsp/Fs < 1`), else `N_z`. -/
def extra (Fs Fsp : ℕ) : ℕ :=
  if (Fsp : ℚ) / (Fs : ℚ) < 1 then (⌈((N_z * Fs : ℕ) : ℚ) / (Fsp : ℚ)⌉).toNat
  else N_z

/-- `x_len = frames + 2 * extra` (line 135). -/
def x_len (F e : ℕ) : ℕ := F + 2 * e

/-- The padded signal `x` (fill loop, lines 147-151): zero in the two
padding regions, else channel 0 of frame `i - extra`.  The domain is `ℤ`
so that out-of-range accesses of the resampling loop can be stated; the
value `0` outside `[0, x_len)` is a modelling convention (in C such an
access is out of bounds). -/
def xPad (F ch : ℕ) (dat : ℕ → ℤ) (e : ℕ) : ℤ → ℤ := fun i =>
  if i < (e : ℤ) ∨ ((F : ℤ) + e) ≤ i then 0 else dat ((i - e).toNat * ch)

/-- `y_len` (line 178): `frames * Fsp / samplerate` computed in 64-bit
integer arithmetic (truncating division), then converted to `int` through
a `double` cast (exact for values in `int` range). -/
def y_len (F Fsp Fs : ℕ) : ℕ := F * Fsp / Fs

/-- The desired output time `t` at output index `j`.  The C code
accumulates `t += 1.0 / Fsp` starting from `0`; in the exact-real model
the value after `j` increments is `j / Fsp`. -/
noncomputable def tOf (Fsp : ℕ) (j : ℕ) : ℝ := (j : ℝ) / (Fsp : ℝ)

/-- `n = t * Fs` (line 190, conversion to `int` truncates toward zero). -/
noncomputable def nRaw (Fs Fsp : ℕ) (j : ℕ) : ℤ := rtz (tOf Fsp j * Fs)

/-- `eta = 1 - (xtn - t) / (xtn - xt)` with `xt = n/Fs`, `xtn = (n+1)/Fs`
(lines 191-193). -/
noncomputable def etaOf (Fs Fsp : ℕ) (j : ℕ) : ℝ :=
  1 - (((nRaw Fs Fsp j + 1 : ℤ) : ℝ) / (Fs : ℝ) - tOf Fsp j) /
      (((nRaw Fs Fsp j + 1 : ℤ) : ℝ) / (Fs : ℝ) - ((nRaw Fs Fsp j : ℤ) : ℝ) / (Fs : ℝ))

/-- `l = eta * L` (line 194, truncating conversion). -/
noncomputable def lOf (Fs Fsp : ℕ) (j : ℕ) : ℤ := rtz (etaOf Fs Fsp j * L)

/-- `eta = 1 - eta` before the right wing (line 202). -/
noncomputable def eta2Of (Fs Fsp : ℕ) (j : ℕ) : ℝ := 1 - etaOf Fs Fsp j

/-- `l = eta * L` recomputed for the right wing (line 203). -/
noncomputable def l2Of (Fs Fsp : ℕ) (j : ℕ) : ℤ := rtz (eta2Of Fs Fsp j * L)

/-- Number of iterations of `for(i = 0; l + i*step < N_h; i++)` with
`step = L`: the count of `i ≥ 0` with `l + i*L < N_h`. -/
def wingCount (l : ℤ) : ℕ := (⌈((N_h : ℚ) - (l : ℚ)) / (L : ℚ)⌉).toNat

/-- The filter factor used at step `i` of a wing:
`h[l + i*L] + eta * hb[l + i*L]`. -/
noncomputable def wingCoeff (h hb : ℕ → ℝ) (eta : ℝ) (l : ℤ) (i : ℕ) : ℝ :=
  h (l + i * L).toNat + eta * hb (l + i * L).toNat

/-- One wing of the accumulation loop (lines 199-200 resp. 206-207).  The
accumulator `v` is a C `short`: every `v += ...` converts the `double`
result back to `short`, truncating toward zero at each step (`rtz`).
(Overflow of the 16-bit range would be undefined behaviour in C and is not
modelled.) -/
noncomputable def wingFold (xs : ℤ → ℤ) (h hb : ℕ → ℝ) (eta : ℝ) (l : ℤ)
    (idx : ℕ → ℤ) (cnt : ℕ) (v0 : ℤ) : ℤ :=
  (List.range cnt).foldl
    (fun v i => rtz ((v : ℝ) + (xs (idx i) : ℝ) * wingCoeff h hb eta l i)) v0

/-- Output sample `y[j]` (loop body, lines 186-211): the left wing starting
from `v = 0` at indices `n - i`, then the right wing at indices
`n + 1 + i`, with `n = nRaw + extra` (line 197).  Parametric in the padded
signal `xs` and the tables `h`, `hb`, which the enclosing code builds once
before the loop. -/
noncomputable def biSample (xs : ℤ → ℤ) (h hb : ℕ → ℝ) (Fs Fsp e : ℕ) (j : ℕ) : ℤ :=
  wingFold xs h hb (eta2Of Fs Fsp j) (l2Of Fs Fsp j)
    (fun i => nRaw Fs Fsp j + e + 1 + i) (wingCount (l2Of Fs Fsp j))
    (wingFold xs h hb (etaOf Fs Fsp j) (lOf Fs Fsp j)
      (fun i => nRaw Fs Fsp j + e - i) (wingCount (lOf Fs Fsp j)) 0)

/-- `cutoff = kaiser_dB(80)` (line 153): the shape parameter used to build
the filter table, hard-coded from an 80 dB attenuation. -/
noncomputable def cutoff : ℝ := kaiser_dB 80

/-- The output buffer `y`: `y_len` samples produced by the resampling loop
using the padded input and the `cutoff`-shaped filter table of length
`N_h`. -/
noncomputable def biOutput (F ch Fs Fsp : ℕ) (dat : ℕ → ℤ) : List ℤ :=
  List.ofFn (fun j : Fin (y_len F Fsp Fs) =>
    biSample (xPad F ch dat (extra Fs Fsp)) (hFun cutoff N_h) (hbFun cutoff N_h)
      Fs Fsp (extra Fs Fsp) j)

/-- Observable content of the output file. -/
structure OutFile where
  channels : ℕ
  samplerate : ℕ
  frames : ℕ
  data : List ℤ

/-- Lines 214-219: after the resampling loop the program sets the output
metadata (1 channel, rate `Fsp`, frame count `y_len`), opens the output
file for writing and immediately closes it.  No write call
(`sf_writef_short` or similar) appears anywhere in the program, so the
sample data written between open and close is empty: the computed buffer
`y` is dropped.  Accordingly this definition does not (and cannot) depend
on the decoded samples. -/
def biWrittenFile (F Fs Fsp : ℕ) : OutFile :=
  { channels := 1, samplerate := Fsp, frames := y_len F Fsp Fs, data := [] }

/-- `bi_resamp` after a successful `sf_open`, as a function of the file
metadata (`F` frames, `ch` channels, rate `Fs`), the target rate `Fsp`,
the decoded samples `dat`, and the frame count `readFrames` returned by
`sf_readf_short` (line 143).  A mismatch with the metadata frame count
calls `exit(1)` (modelled `Except.error 1`) before the filter table
(lines 153-174) or any output sample (lines 186-212) exists; the success
value carries the two tables, the output buffer and the written file. -/
noncomputable def biRun (F ch Fs Fsp : ℕ) (dat : ℕ → ℤ) (readFrames : ℕ) :
    Except ℕ ((ℕ → ℝ) × (ℕ → ℝ) × List ℤ × OutFile) :=
  if readFrames ≠ F then Except.error 1
  else Except.ok (hFun cutoff N_h, hbFun cutoff N_h, biOutput F ch Fs Fsp dat,
    biWrittenFile F Fs Fsp)

/-- The per-sample value asserted by claim C3, written from the spec's
words (comparison definition for a refinement check against `biSample`):
both wing contributions are accumulated in full precision and the
truncation to the output width is applied once, to the final sum. -/
noncomputable def biSampleSpec (xs : ℤ → ℤ) (h hb : ℕ → ℝ) (Fs Fsp e : ℕ) (j : ℕ) : ℤ :=
  rtz ((∑ i in Finset.range (wingCount (lOf Fs Fsp j)),
      (xs (nRaw Fs Fsp j + e - i) : ℝ) * wingCoeff h hb (etaOf Fs Fsp j) (lOf Fs Fsp j) i) +
    ∑ i in Finset.range (wingCount (l2Of Fs Fsp j)),
      (xs (nRaw Fs Fsp j + e + 1 + i) : ℝ) * wingCoeff h hb (eta2Of Fs Fsp j) (l2Of Fs Fsp j) i)

/-- Step-truncated accumulation: value of the `short` accumulator after
`k` steps, each adding one contribution and truncating toward zero. -/
noncomputable def stepTruncAcc (c : ℕ → ℝ) : ℕ → ℤ
  | 0 => 0
  | k + 1 => rtz ((stepTruncAcc c k : ℝ) + c k)

/-- The sequence of per-step contributions of one output sample: the
left-wing products followed by the right-wing products. -/
noncomputable def contribSeq (xs : ℤ → ℤ) (h hb : ℕ → ℝ) (Fs Fsp e : ℕ) (j : ℕ) (k : ℕ) : ℝ :=
  if k < wingCount (lOf Fs Fsp j) then
    (xs (nRaw Fs Fsp j + e - k) : ℝ) * wingCoeff h hb (etaOf Fs Fsp j) (lOf Fs Fsp j) k
  else
    (xs (nRaw Fs Fsp j + e + 1 + ((k - wingCount (lOf Fs Fsp j) : ℕ) : ℤ)) : ℝ) *
      wingCoeff h hb (eta2Of Fs Fsp j) (l2Of Fs Fsp j) (k - wingCount (lOf Fs Fsp j))

/-- A concrete filter table for refuting C3.  It satisfies the FilterTable
invariants (`h[0] = 1`, `hb` the forward differences of `h` with the last
entry forced to 0) and carries two fractional taps `3/5` at `h[L]` and
`h[2L]`. -/
noncomputable def hDemo : ℕ → ℝ := fun i =>
  if i = 0 then 1 else if i = L then 3 / 5 else if i = 2 * L then 3 / 5 else 0

/-- Forward differences of `hDemo` with last entry 0 (FilterTable shape). -/
noncomputable def hbDemo : ℕ → ℝ := fun i =>
  if i = N_h - 1 then 0 else hDemo (i + 1) - hDemo i

/-- A constant input signal of value 1 (six frames are used below). -/
def datOnes : ℕ → ℤ := fun _ => 1

theorem besselTerm_nonneg (x : ℝ) (i : ℕ) : 0 ≤ besselTerm x i := by
  unfold besselTerm
  rw [pow_mul]
  exact div_nonneg (sq_nonneg _) (sq_nonneg _)

theorem besselTerm_exists_lt (x : ℝ) : ∃ i, 1 ≤ i ∧ besselTerm x i < 1e-21 := by
  have hb : ∀ i : ℕ, besselTerm x i ≤ ((x / 2) ^ 2) ^ i / (Nat.factorial i : ℝ) := by
    intro i
    unfold besselTerm
    rw [mul_comm i 2, pow_mul]
    apply div_le_div_of_nonneg_left (by positivity) (by positivity)
    have h1 : (1 : ℝ) ≤ (Nat.factorial i : ℝ) := by
      exact_mod_cast Nat.one_le_iff_ne_zero.mpr (Nat.factorial_ne_zero i)
    nlinarith [sq_nonneg ((Nat.factorial i : ℝ))]
  have htend := FloorSemiring.tendsto_pow_div_factorial_atTop ((x / 2) ^ 2)
  have hev : ∀ᶠ i in Filter.atTop, ((x / 2) ^ 2) ^ i / (Nat.factorial i : ℝ) < 1e-21 :=
    htend.eventually (gt_mem_nhds (by norm_num))
  rcases Filter.eventually_atTop.mp hev with ⟨a, ha⟩
  refine ⟨max a 1, le_max_right a 1, lt_of_le_of_lt (hb _) (ha _ (le_max_left a 1))⟩

theorem besselStop_mem (x : ℝ) :
    1 ≤ besselStop x ∧ besselTerm x (besselStop x) < 1e-21 :=
  Nat.sInf_mem (besselTerm_exists_lt x)

theorem bessel_i0_ge_one (x : ℝ) : 1 ≤ bessel_i0 x := by
  unfold bessel_i0
  have : 0 ≤ ∑ k in Finset.Ico 1 (besselStop x), besselTerm x k :=
    Finset.sum_nonneg fun k _ => besselTerm_nonneg x k
  linarith

theorem bessel_i0_zero : bessel_i0 0 = 1 := by
  have hstop : besselStop 0 = 1 := by
    have h1 : (1 : ℕ) ∈ {i : ℕ | 1 ≤ i ∧ besselTerm 0 i < 1e-21} := by
      constructor
      · exact le_refl 1
      · unfold besselTerm
        norm_num
    have hle : besselStop 0 ≤ 1 := Nat.sInf_le h1
    have hge : 1 ≤ besselStop 0 := (besselStop_mem 0).1
    omega
  unfold bessel_i0
  rw [hstop]
  simp

theorem rpow29_pow_five : ((29 : ℝ) ^ (0.4 : ℝ)) ^ (5 : ℕ) = 841 := by
  rw [← Real.rpow_natCast ((29 : ℝ) ^ (0.4 : ℝ)) 5,
    ← Real.rpow_mul (by norm_num : (0 : ℝ) ≤ 29)]
  rw [show (0.4 : ℝ) * (5 : ℕ) = ((2 : ℕ) : ℝ) by norm_num, Real.rpow_natCast]
  norm_num

theorem rpow29_lt : (29 : ℝ) ^ (0.4 : ℝ) < 3.846 := by
  by_contra h
  push_neg at h
  have h5 : (3.846 : ℝ) ^ (5 : ℕ) ≤ ((29 : ℝ) ^ (0.4 : ℝ)) ^ (5 : ℕ) :=
    pow_le_pow_left₀ (by norm_num) h 5
  rw [rpow29_pow_five] at h5
  norm_num at h5

theorem lt_rpow29 : 3.845 < (29 : ℝ) ^ (0.4 : ℝ) := by
  by_contra h
  push_neg at h
  have h5 : ((29 : ℝ) ^ (0.4 : ℝ)) ^ (5 : ℕ) ≤ (3.845 : ℝ) ^ (5 : ℕ) :=
    pow_le_pow_left₀ (Real.rpow_nonneg (by norm_num) _) h 5
  rw [rpow29_pow_five] at h5
  norm_num at h5

/-- C8: for every (finite) real argument `x` the term-accumulation loop of
`bessel_i0` terminates — some loop counter `i ≥ 1` reaches a term below the
`1.0e-21` stopping threshold — and the returned value is at least `1`,
hence finite (it is a real number) and non-negative. -/
theorem bessel_i0_terminates_and_nonneg (x : ℝ) :
    (∃ i, 1 ≤ i ∧ besselTerm x i < 1e-21) ∧ 0 ≤ bessel_i0 x ∧ 1 ≤ bessel_i0 x :=
  ⟨besselTerm_exists_lt x, le_trans zero_le_one (bessel_i0_ge_one x),
    bessel_i0_ge_one x⟩

/-- C7: for shape `alpha = 0` and positive half-length `M`, the Kaiser
window is exactly `1` on `[0, M]` and exactly `0` outside, as a consequence
of `bessel_i0 0 = 1` holding exactly.  (The hypothesis `0 < M` excludes the
degenerate `M = 0`, where the C code divides `0.0/0.0` and propagates NaN,
which the real-valued model cannot express.) -/
theorem kaiser_alpha_zero_rect (M n : ℝ) (hM : 0 < M) :
    bessel_i0 0 = 1 ∧
    (0 ≤ n → n ≤ M → kaiser 0 M n = 1) ∧
    (n < 0 ∨ n > M → kaiser 0 M n = 0) := by
  refine ⟨bessel_i0_zero, ?_, ?_⟩
  · intro h0 hMn
    have hcond : ¬(n < 0 ∨ n > M) := by
      push_neg
      exact ⟨h0, hMn⟩
    rw [kaiser, if_neg hcond, zero_mul, bessel_i0_zero]
    norm_num
  · intro hcond
    rw [kaiser, if_pos hcond]

/-- C7 witness: instantiation at `M = 4`, `n = 2` (in range) with the
hypotheses discharged. -/
theorem kaiser_alpha_zero_rect_witness :
    (0 : ℝ) < 4 ∧
    (bessel_i0 0 = 1 ∧
      (0 ≤ (2 : ℝ) → (2 : ℝ) ≤ 4 → kaiser 0 4 2 = 1) ∧
      ((2 : ℝ) < 0 ∨ (2 : ℝ) > 4 → kaiser 0 4 2 = 0)) :=
  ⟨by norm_num, kaiser_alpha_zero_rect 4 2 (by norm_num)⟩

/-- C6 counterexample: the claim asserts that at both breakpoints the two
adjoining branch formulas of `kaiser_dB` agree to floating-point precision.
At `dB = 50` the `dB > 50` branch and the middle branch differ by more than
`1/100` — about 14 orders of magnitude beyond double rounding error — so
the claim is false at the concrete input `dB = 50`. -/
theorem kaiser_dB_break50_gap :
    1 / 100 < kaiser_dB_high 50 - kaiser_dB_mid 50 := by
  unfold kaiser_dB_high kaiser_dB_mid
  rw [show (50 : ℝ) - 21 = 29 by norm_num]
  nlinarith [rpow29_lt]

/-- C6 amended: `kaiser_dB` is continuous (the adjoining branch formulas
agree exactly) at the breakpoint `dB = 21`, but at `dB = 50` the adjoining
branch formulas differ by a gap strictly between `1/100` and `2/100`
(numerically ≈ 0.0177), so the piecewise function is discontinuous there;
`kaiser_dB` itself takes the middle branch at `dB = 50`. -/
theorem kaiser_dB_breakpoints_amended :
    kaiser_dB_mid 21 = kaiser_dB_low 21 ∧
    kaiser_dB 50 = kaiser_dB_mid 50 ∧
    1 / 100 < kaiser_dB_high 50 - kaiser_dB_mid 50 ∧
    kaiser_dB_high 50 - kaiser_dB_mid 50 < 2 / 100 := by
  refine ⟨?_, ?_, ?_, ?_⟩
  · unfold kaiser_dB_mid kaiser_dB_low
    rw [show (21 : ℝ) - 21 = 0 by norm_num, Real.zero_rpow (by norm_num)]
    norm_num
  · rw [kaiser_dB, if_neg (by norm_num), if_pos (by norm_num)]
  · unfold kaiser_dB_high kaiser_dB_mid
    rw [show (50 : ℝ) - 21 = 29 by norm_num]
    nlinarith [rpow29_lt]
  · unfold kaiser_dB_high kaiser_dB_mid
    rw [show (50 : ℝ) - 21 = 29 by norm_num]
    nlinarith [lt_rpow29]

theorem hTable_length (alpha : ℝ) (len : ℕ) : (hTable alpha len).length = len := by
  simp [hTable]

theorem hbTable_length (alpha : ℝ) (len : ℕ) (hlen : 1 ≤ len) :
    (hbTable alpha len).length = len := by
  simp [hbTable]
  omega

/-- C5: for every shape parameter `alpha` and table length `len ≥ 1`, the
built filter tables satisfy `h[0] = 1.0` exactly, `hb[len-1] = 0.0`, and
`hb[i] = h[i+1] - h[i]` for every `i < len - 1`. -/
theorem filter_table_invariants (alpha : ℝ) (len : ℕ) (hlen : 1 ≤ len) :
    (hTable alpha len).length = len ∧
    (hbTable alpha len).length = len ∧
    (hTable alpha len)[0]? = some 1 ∧
    (hbTable alpha len)[len - 1]? = some 0 ∧
    ∀ i, i < len - 1 →
      ∃ a b, (hTable alpha len)[i + 1]? = some a ∧
        (hTable alpha len)[i]? = some b ∧
        (hbTable alpha len)[i]? = some (a - b) := by
  refine ⟨hTable_length alpha len, hbTable_length alpha len hlen, ?_, ?_, ?_⟩
  · rw [hTable, List.getElem?_eq_getElem (by simpa using hlen), List.getElem_ofFn]
    simp [hFun]
  · rw [hbTable, List.getElem?_append_right (by simp)]
    simp
  · intro i hi
    refine ⟨hFun alpha len (i + 1), hFun alpha len i, ?_, ?_, ?_⟩
    · rw [hTable, List.getElem?_eq_getElem (by simp; omega), List.getElem_ofFn]
    · rw [hTable, List.getElem?_eq_getElem (by simp; omega), List.getElem_ofFn]
    · rw [hbTable, List.getElem?_append_left (by simpa using hi), List.getElem?_map,
        List.getElem?_range hi]
      rfl

/-- C5 witness: instantiation at `alpha = 0`, `len = 3`. -/
theorem filter_table_invariants_witness :
    (1 : ℕ) ≤ 3 ∧
    ((hTable 0 3).length = 3 ∧
      (hbTable 0 3).length = 3 ∧
      (hTable 0 3)[0]? = some 1 ∧
      (hbTable 0 3)[3 - 1]? = some 0 ∧
      ∀ i, i < 3 - 1 →
        ∃ a b, (hTable 0 3)[i + 1]? = some a ∧
          (hTable 0 3)[i]? = some b ∧
          (hbTable 0 3)[i]? = some (a - b)) :=
  ⟨by norm_num, filter_table_invariants 0 3 (by norm_num)⟩

/-- C2: for every input with `F` frames at rate `Fs` and output rate `Fsp`,
the output buffer produced by the resampling loop has exactly
`floor(F * Fsp / Fs)` samples. -/
theorem bi_output_length (F ch Fs Fsp : ℕ) (dat : ℕ → ℤ) :
    (biOutput F ch Fs Fsp dat).length = ⌊((F * Fsp : ℕ) : ℚ) / (Fs : ℚ)⌋₊ := by
  rw [biOutput, List.length_ofFn, y_len, Nat.floor_div_nat, Nat.floor_natCast]

/-- C9: the filter table is always built from the fixed shape parameter
`cutoff = kaiser_dB(80)` — the value `0.1102 * (80 - 8.7) = 7.85726` from
the `dB > 50` branch — and the table handed to the resampling loop is
`hFun cutoff / hbFun cutoff` for every input, rate pair and signal: the
attenuation is hard-coded, not configurable and not data-dependent. -/
theorem bi_cutoff_hardcoded :
    cutoff = 0.1102 * (80 - 8.7) ∧ cutoff = 7.85726 ∧
    ∀ F ch Fs Fsp dat, biOutput F ch Fs Fsp dat =
      List.ofFn (fun j : Fin (y_len F Fsp Fs) =>
        biSample (xPad F ch dat (extra Fs Fsp)) (hFun cutoff N_h) (hbFun cutoff N_h)
          Fs Fsp (extra Fs Fsp) j) := by
  refine ⟨?_, ?_, fun F ch Fs Fsp dat => rfl⟩
  · rw [cutoff, kaiser_dB, if_pos (by norm_num : (80 : ℝ) > 50)]
    rfl
  · rw [cutoff, kaiser_dB, if_pos (by norm_num : (80 : ℝ) > 50)]
    unfold kaiser_dB_high
    norm_num

/-- C10: if the frame count reported by `sf_readf_short` differs from the
metadata frame count, the program exits with status 1 (line 144), before
any filter table is built or any output sample is produced (the error
result carries neither). -/
theorem bi_read_mismatch_exits (F ch Fs Fsp : ℕ) (dat : ℕ → ℤ)
    (readFrames : ℕ) (h : readFrames ≠ F) :
    biRun F ch Fs Fsp dat readFrames = Except.error 1 := by
  rw [biRun, if_pos h]

/-- C10 witness: a 4-frame file of which only 3 frames decode. -/
theorem bi_read_mismatch_exits_witness :
    (3 : ℕ) ≠ 4 ∧ biRun 4 1 8000 16000 (fun _ => (0 : ℤ)) 3 = Except.error 1 :=
  ⟨by norm_num, bi_read_mismatch_exits 4 1 8000 16000 (fun _ => 0) 3 (by norm_num)⟩

/-- C1 (code bug): the program never hands the output buffer to a write
call — lines 217-219 open the output file and close it immediately, with
no `sf_writef` between them — so the written file contains `0` frames of
data even though its metadata announces `y_len` frames.  Evaluated at a
concrete successful run (4 frames, 8000 Hz, target 16000 Hz): `y_len = 8`
but the written data is empty; and the written file is independent of the
decoded samples altogether. -/
theorem bi_written_file_empty :
    (biWrittenFile 4 8000 16000).data.length = 0 ∧
    (biWrittenFile 4 8000 16000).frames = 8 ∧
    y_len 4 16000 8000 = 8 ∧
    ∀ F Fs Fsp, (biWrittenFile F Fs Fsp).data = [] :=
  ⟨rfl, rfl, rfl, fun _ _ _ => rfl⟩

theorem rtz_of_nonneg {r : ℝ} (h : 0 ≤ r) : rtz r = ⌊r⌋ := if_pos h

theorem rtz_eval {r : ℝ} {z : ℤ} (h0 : 0 ≤ r) (h1 : (z : ℝ) ≤ r) (h2 : r < z + 1) :
    rtz r = z := by
  rw [rtz_of_nonneg h0]
  exact Int.floor_eq_iff.mpr ⟨h1, h2⟩

theorem rtz_intCast (z : ℤ) : rtz ((z : ℤ) : ℝ) = z := by
  rcases le_or_lt 0 z with h | h
  · exact rtz_eval (by exact_mod_cast h) le_rfl (by norm_num)
  · rw [rtz, if_neg (by exact_mod_cast not_le.mpr h), ← Int.cast_neg, Int.floor_intCast]
    omega

theorem wingCount_iff (l : ℤ) (i : ℕ) : i < wingCount l ↔ l + i * L < (N_h : ℤ) := by
  have hLQ : ((L : ℕ) : ℚ) = 512 := by norm_num [L, n_l, n_c]
  have hNhQ : ((N_h : ℕ) : ℚ) = 2561 := by norm_num [N_h, L, N_z, n_l, n_c]
  have hLZ : ((L : ℕ) : ℤ) = 512 := by norm_num [L, n_l, n_c]
  have hNhZ : ((N_h : ℕ) : ℤ) = 2561 := by norm_num [N_h, L, N_z, n_l, n_c]
  rw [wingCount, hLQ, hNhQ, hLZ, hNhZ, Int.lt_toNat, Int.lt_ceil,
    lt_div_iff₀ (by norm_num : (0 : ℚ) < 512)]
  constructor
  · intro h
    have h2 : (i : ℤ) * 512 < 2561 - l := by exact_mod_cast h
    omega
  · intro h
    have h2 : (i : ℤ) * 512 < 2561 - l := by omega
    exact_mod_cast h2

theorem wingCount_zero_eq : wingCount 0 = 6 := by
  have h5 : 5 < wingCount 0 := by
    rw [wingCount_iff]
    norm_num [L, n_l, n_c, N_h, N_z]
  have h6 : ¬ 6 < wingCount 0 := by
    rw [wingCount_iff]
    norm_num [L, n_l, n_c, N_h, N_z]
  omega

theorem wingCount_512_eq : wingCount 512 = 5 := by
  have h4 : 4 < wingCount 512 := by
    rw [wingCount_iff]
    norm_num [L, n_l, n_c, N_h, N_z]
  have h5 : ¬ 5 < wingCount 512 := by
    rw [wingCount_iff]
    norm_num [L, n_l, n_c, N_h, N_z]
  omega

theorem extra_one_one : extra 1 1 = 5 := by
  rw [extra, if_neg (by norm_num)]
  rfl

theorem nRaw_eval_115 : nRaw 1 1 5 = 5 := by
  have ht : tOf 1 5 * ((1 : ℕ) : ℝ) = 5 := by norm_num [tOf]
  rw [nRaw, ht]
  exact rtz_eval (by norm_num) (by norm_num) (by norm_num)

theorem etaOf_eval_115 : etaOf 1 1 5 = 0 := by
  rw [etaOf, nRaw_eval_115, tOf]
  norm_num

theorem lOf_eval_115 : lOf 1 1 5 = 0 := by
  rw [lOf, etaOf_eval_115, zero_mul]
  exact rtz_eval le_rfl (by norm_num) (by norm_num)

theorem eta2Of_eval_115 : eta2Of 1 1 5 = 1 := by
  rw [eta2Of, etaOf_eval_115]
  norm_num

theorem l2Of_eval_115 : l2Of 1 1 5 = 512 := by
  have hL : ((L : ℕ) : ℝ) = 512 := by norm_num [L, n_l, n_c]
  rw [l2Of, eta2Of_eval_115, one_mul, hL]
  exact rtz_eval (by norm_num) (by norm_num) (by norm_num)

theorem rtz_one : rtz (1 : ℝ) = 1 :=
  rtz_eval (by norm_num) (by norm_num) (by norm_num)

theorem rtz_eight_fifths : rtz ((8 : ℝ) / 5) = 1 :=
  rtz_eval (by norm_num) (by norm_num) (by norm_num)

theorem rtz_eleven_fifths : rtz ((11 : ℝ) / 5) = 2 :=
  rtz_eval (by norm_num) (by norm_num) (by norm_num)

/-- C3 counterexample: the claim asserts `y[j]` equals the truncation of
the full-precision sum of both wing contributions, truncated once at the
end.  Concrete run refuting it: six input frames of value 1 at
`Fs = Fsp = 1` (so `extra = 5`), a FilterTable with `h[0] = 1`,
`h[L] = h[2L] = 3/5` and `hb` its forward differences, output index
`j = 5`.  The code's `short` accumulator truncates after every step
(`1 → ⌊1.6⌋ = 1 → ⌊1.6⌋ = 1`) and yields `1`, while the full-precision
sum is `1 + 3/5 + 3/5 = 11/5`, whose single truncation yields `2`. -/
theorem bi_sample_trunc_refuted :
    extra 1 1 = 5 ∧
    biSample (xPad 6 1 datOnes 5) hDemo hbDemo 1 1 5 5 = 1 ∧
    biSampleSpec (xPad 6 1 datOnes 5) hDemo hbDemo 1 1 5 5 = 2 := by
  refine ⟨extra_one_one, ?_, ?_⟩
  · rw [biSample]
    simp only [nRaw_eval_115, etaOf_eval_115, lOf_eval_115, eta2Of_eval_115,
      l2Of_eval_115, wingCount_zero_eq, wingCount_512_eq]
    rw [wingFold, wingFold]
    rw [show List.range 6 = [0, 1, 2, 3, 4, 5] from rfl,
      show List.range 5 = [0, 1, 2, 3, 4] from rfl]
    simp only [List.foldl_cons, List.foldl_nil]
    norm_num [xPad, datOnes, wingCoeff, hDemo, hbDemo, L, n_l, n_c, N_h, N_z,
      Int.toNat]
    norm_num [rtz_one, rtz_eight_fifths]
  · rw [biSampleSpec]
    simp only [nRaw_eval_115, etaOf_eval_115, lOf_eval_115, eta2Of_eval_115,
      l2Of_eval_115, wingCount_zero_eq, wingCount_512_eq]
    norm_num [Finset.sum_range_succ, xPad, datOnes, wingCoeff, hDemo, hbDemo,
      L, n_l, n_c, N_h, N_z, Int.toNat, rtz_eleven_fifths]

theorem stepTruncAcc_wingFold (c : ℕ → ℝ) (xs : ℤ → ℤ) (h hb : ℕ → ℝ) (eta : ℝ) (l : ℤ)
    (idx : ℕ → ℤ) (off cnt : ℕ) (v0 : ℤ)
    (hc : ∀ i, i < cnt → c (off + i) = (xs (idx i) : ℝ) * wingCoeff h hb eta l i)
    (hacc : stepTruncAcc c off = v0) :
    stepTruncAcc c (off + cnt) = wingFold xs h hb eta l idx cnt v0 := by
  revert hc
  induction cnt with
  | zero =>
    intro _
    simpa [wingFold] using hacc
  | succ k ih =>
    intro hc
    rw [show off + (k + 1) = (off + k) + 1 from rfl, stepTruncAcc,
      ih (fun i hi => hc i (by omega))]
    rw [wingFold, wingFold, List.range_succ, List.foldl_append]
    simp only [List.foldl_cons, List.foldl_nil]
    rw [hc k (by omega)]

/-- C3 amended: the truncation to the output width is applied at *every*
accumulation step, not once at the end: the accumulator is a C `short`,
so each `v += ...` truncates the partial sum.  `y[j]` equals the value of
the step-truncated recurrence `v₀ = 0, vₖ₊₁ = rtz(vₖ + cₖ)` run over the
left-wing contributions followed by the right-wing contributions. -/
theorem bi_sample_step_truncation (xs : ℤ → ℤ) (h hb : ℕ → ℝ) (Fs Fsp e j : ℕ) :
    biSample xs h hb Fs Fsp e j =
      stepTruncAcc (contribSeq xs h hb Fs Fsp e j)
        (wingCount (lOf Fs Fsp j) + wingCount (l2Of Fs Fsp j)) := by
  rw [biSample]
  refine (stepTruncAcc_wingFold (contribSeq xs h hb Fs Fsp e j) xs h hb
    (eta2Of Fs Fsp j) (l2Of Fs Fsp j) (fun i => nRaw Fs Fsp j + e + 1 + i)
    (wingCount (lOf Fs Fsp j)) (wingCount (l2Of Fs Fsp j)) _ ?_ ?_).symm
  · intro i hi
    rw [contribSeq, if_neg (by omega)]
    rw [Nat.add_sub_cancel_left]
  · have hL := stepTruncAcc_wingFold (contribSeq xs h hb Fs Fsp e j) xs h hb
      (etaOf Fs Fsp j) (lOf Fs Fsp j) (fun i => nRaw Fs Fsp j + e - i)
      0 (wingCount (lOf Fs Fsp j)) 0
      (fun i hi => by rw [zero_add, contribSeq, if_pos hi]) rfl
    simpa using hL

theorem L_int : ((L : ℕ) : ℤ) = 512 := by norm_num [L, n_l, n_c]

theorem N_h_int : ((N_h : ℕ) : ℤ) = 2561 := by norm_num [N_h, L, N_z, n_l, n_c]

theorem N_z_int : ((N_z : ℕ) : ℤ) = 5 := rfl

theorem tOf_mul_nonneg (Fs Fsp j : ℕ) : 0 ≤ tOf Fsp j * (Fs : ℝ) := by
  rw [tOf]
  positivity

theorem nRaw_eq_floor (Fs Fsp j : ℕ) : nRaw Fs Fsp j = ⌊tOf Fsp j * (Fs : ℝ)⌋ :=
  rtz_of_nonneg (tOf_mul_nonneg Fs Fsp j)

theorem nRaw_nonneg (Fs Fsp j : ℕ) : 0 ≤ nRaw Fs Fsp j := by
  rw [nRaw_eq_floor]
  exact Int.floor_nonneg.mpr (tOf_mul_nonneg Fs Fsp j)

theorem etaOf_eq_fract (Fs Fsp j : ℕ) (hFs : 0 < Fs) :
    etaOf Fs Fsp j = Int.fract (tOf Fsp j * (Fs : ℝ)) := by
  have hFs' : (Fs : ℝ) ≠ 0 := Nat.cast_ne_zero.mpr hFs.ne'
  rw [etaOf, nRaw_eq_floor]
  have hden : ((⌊tOf Fsp j * (Fs : ℝ)⌋ + 1 : ℤ) : ℝ) / (Fs : ℝ) -
      ((⌊tOf Fsp j * (Fs : ℝ)⌋ : ℤ) : ℝ) / (Fs : ℝ) = 1 / (Fs : ℝ) := by
    push_cast
    field_simp
  rw [hden, one_div, div_inv_eq_mul]
  have hexp : 1 - (((⌊tOf Fsp j * (Fs : ℝ)⌋ : ℤ) + 1 : ℝ) / (Fs : ℝ) - tOf Fsp j) * (Fs : ℝ) =
      tOf Fsp j * (Fs : ℝ) - ((⌊tOf Fsp j * (Fs : ℝ)⌋ : ℤ) : ℝ) := by
    rw [sub_mul, div_mul_cancel₀ _ hFs']
    ring
  push_cast at hexp ⊢
  rw [hexp]
  exact Int.self_sub_floor _

theorem etaOf_nonneg (Fs Fsp j : ℕ) (hFs : 0 < Fs) : 0 ≤ etaOf Fs Fsp j := by
  rw [etaOf_eq_fract Fs Fsp j hFs]
  exact Int.fract_nonneg _

theorem etaOf_lt_one (Fs Fsp j : ℕ) (hFs : 0 < Fs) : etaOf Fs Fsp j < 1 := by
  rw [etaOf_eq_fract Fs Fsp j hFs]
  exact Int.fract_lt_one _

theorem lOf_nonneg (Fs Fsp j : ℕ) (hFs : 0 < Fs) : 0 ≤ lOf Fs Fsp j := by
  rw [lOf, rtz_of_nonneg (mul_nonneg (etaOf_nonneg Fs Fsp j hFs) (Nat.cast_nonneg L))]
  exact Int.floor_nonneg.mpr (mul_nonneg (etaOf_nonneg Fs Fsp j hFs) (Nat.cast_nonneg L))

theorem eta2Of_nonneg (Fs Fsp j : ℕ) (hFs : 0 < Fs) : 0 ≤ eta2Of Fs Fsp j := by
  rw [eta2Of]
  linarith [etaOf_lt_one Fs Fsp j hFs]

theorem l2Of_eq_floor (Fs Fsp j : ℕ) (hFs : 0 < Fs) :
    l2Of Fs Fsp j = ⌊eta2Of Fs Fsp j * (L : ℝ)⌋ := by
  rw [l2Of, rtz_of_nonneg (mul_nonneg (eta2Of_nonneg Fs Fsp j hFs) (Nat.cast_nonneg L))]

theorem l2Of_nonneg (Fs Fsp j : ℕ) (hFs : 0 < Fs) : 0 ≤ l2Of Fs Fsp j := by
  rw [l2Of_eq_floor Fs Fsp j hFs]
  exact Int.floor_nonneg.mpr (mul_nonneg (eta2Of_nonneg Fs Fsp j hFs) (Nat.cast_nonneg L))

theorem wing_i_le (l : ℤ) (hl : 0 ≤ l) (i : ℕ) (hi : i < wingCount l) : i ≤ N_z := by
  have h := (wingCount_iff l i).mp hi
  rw [L_int, N_h_int] at h
  have h2 : (i : ℤ) ≤ 5 := by omega
  have h3 : i ≤ 5 := by exact_mod_cast h2
  simpa [N_z] using h3

theorem wing_l_eq_zero (l : ℤ) (hl : 0 ≤ l) (hN : N_z < wingCount l) : l = 0 := by
  have h := (wingCount_iff l N_z).mp hN
  rw [L_int, N_h_int, N_z_int] at h
  omega

theorem extra_ge_N_z (Fs Fsp : ℕ) (hFs : 0 < Fs) (hFsp : 0 < Fsp) :
    N_z ≤ extra Fs Fsp := by
  rw [extra]
  split_ifs with hlt
  · have hFspFs : Fsp < Fs := by
      by_contra hge
      push_neg at hge
      have h1 : (1 : ℚ) ≤ (Fsp : ℚ) / (Fs : ℚ) := by
        rw [le_div_iff₀ (by exact_mod_cast hFs : (0 : ℚ) < Fs)]
        have : (Fs : ℚ) ≤ (Fsp : ℚ) := by exact_mod_cast hge
        linarith
      linarith
    have hq : (N_z : ℚ) ≤ ((N_z * Fs : ℕ) : ℚ) / (Fsp : ℚ) := by
      rw [le_div_iff₀ (by exact_mod_cast hFsp : (0 : ℚ) < Fsp)]
      push_cast
      have h2 : (Fsp : ℚ) ≤ (Fs : ℚ) := by exact_mod_cast hFspFs.le
      have h3 : (0 : ℚ) ≤ (N_z : ℚ) := by positivity
      nlinarith
    have hle : (N_z : ℤ) ≤ ⌈((N_z * Fs : ℕ) : ℚ) / (Fsp : ℚ)⌉ := by
      have h4 := Int.le_ceil (((N_z * Fs : ℕ) : ℚ) / (Fsp : ℚ))
      have h5 : ((N_z : ℤ) : ℚ) ≤ (⌈((N_z * Fs : ℕ) : ℚ) / (Fsp : ℚ)⌉ : ℚ) := by
        refine le_trans ?_ h4
        exact_mod_cast hq
      exact_mod_cast h5
    omega
  · exact le_refl N_z

theorem tmul_le (F Fs Fsp j : ℕ) (hFs : 0 < Fs) (hFsp : 0 < Fsp)
    (hj : j < y_len F Fsp Fs) :
    tOf Fsp j * (Fs : ℝ) ≤ (F : ℝ) - (Fs : ℝ) / (Fsp : ℝ) := by
  have hFsp' : (0 : ℝ) < (Fsp : ℝ) := by exact_mod_cast hFsp
  rw [y_len] at hj
  have hmul : (j + 1) * Fs ≤ F * Fsp := (Nat.le_div_iff_mul_le hFs).mp hj
  have hmulR : ((j : ℝ) + 1) * (Fs : ℝ) ≤ (F : ℝ) * (Fsp : ℝ) := by exact_mod_cast hmul
  rw [tOf, div_mul_eq_mul_div, div_le_iff₀ hFsp']
  have hexp : ((F : ℝ) - (Fs : ℝ) / (Fsp : ℝ)) * (Fsp : ℝ) =
      (F : ℝ) * (Fsp : ℝ) - (Fs : ℝ) := by
    rw [sub_mul, div_mul_cancel₀ _ hFsp'.ne']
  rw [hexp]
  nlinarith

theorem nRaw_lt_F (F Fs Fsp j : ℕ) (hFs : 0 < Fs) (hFsp : 0 < Fsp)
    (hj : j < y_len F Fsp Fs) : nRaw Fs Fsp j < (F : ℤ) := by
  rw [nRaw_eq_floor, Int.floor_lt]
  have h := tmul_le F Fs Fsp j hFs hFsp hj
  have hpos : (0 : ℝ) < (Fs : ℝ) / (Fsp : ℝ) :=
    div_pos (by exact_mod_cast hFs) (by exact_mod_cast hFsp)
  push_cast
  linarith

/-- C4 amended: the claim holds under the additional restriction
`Fsp ≤ L * Fs` (output rate at most `L = 512` times the input rate): for
every output index `j` the loop visits, all left-wing accesses `x[n - i]`
and right-wing accesses `x[n + 1 + i]` (with `n = nRaw + extra`) stay
within `[0, x_len)`.  Without the restriction the right wing can read one
past the buffer (see the counterexample). -/
theorem bi_bounds_amended (F Fs Fsp j : ℕ) (hFs : 0 < Fs) (hFsp : 0 < Fsp)
    (hratio : Fsp ≤ L * Fs) (hj : j < y_len F Fsp Fs) :
    (∀ i : ℕ, i < wingCount (lOf Fs Fsp j) →
      0 ≤ nRaw Fs Fsp j + (extra Fs Fsp : ℤ) - i ∧
      nRaw Fs Fsp j + (extra Fs Fsp : ℤ) - i < (x_len F (extra Fs Fsp) : ℤ)) ∧
    (∀ i : ℕ, i < wingCount (l2Of Fs Fsp j) →
      0 ≤ nRaw Fs Fsp j + (extra Fs Fsp : ℤ) + 1 + i ∧
      nRaw Fs Fsp j + (extra Fs Fsp : ℤ) + 1 + i < (x_len F (extra Fs Fsp) : ℤ)) := by
  have hn0 := nRaw_nonneg Fs Fsp j
  have hnF := nRaw_lt_F F Fs Fsp j hFs hFsp hj
  have he5 : 5 ≤ extra Fs Fsp := by
    simpa [N_z] using extra_ge_N_z Fs Fsp hFs hFsp
  have hxlen : (x_len F (extra Fs Fsp) : ℤ) = (F : ℤ) + 2 * (extra Fs Fsp : ℤ) := by
    rw [x_len]
    push_cast
    ring
  constructor
  · intro i hi
    have hile : i ≤ 5 := by
      simpa [N_z] using wing_i_le (lOf Fs Fsp j) (lOf_nonneg Fs Fsp j hFs) i hi
    rw [hxlen]
    omega
  · intro i hi
    have hile : i ≤ 5 := by
      simpa [N_z] using wing_i_le (l2Of Fs Fsp j) (l2Of_nonneg Fs Fsp j hFs) i hi
    rw [hxlen]
    refine ⟨by omega, ?_⟩
    rcases Nat.lt_or_ge i 5 with hi5 | hi5
    · omega
    · have hieq : i = 5 := by omega
      by_contra hcon
      push_neg at hcon
      have hn0F : nRaw Fs Fsp j = (F : ℤ) - 1 := by omega
      have hN : N_z < wingCount (l2Of Fs Fsp j) := by
        have : (5 : ℕ) < wingCount (l2Of Fs Fsp j) := by omega
        simpa [N_z] using this
      have hl2 := wing_l_eq_zero (l2Of Fs Fsp j) (l2Of_nonneg Fs Fsp j hFs) hN
      have hfloor : ⌊eta2Of Fs Fsp j * (L : ℝ)⌋ = 0 := by
        rw [← l2Of_eq_floor Fs Fsp j hFs]
        exact hl2
      have hL512 : ((L : ℕ) : ℝ) = 512 := by norm_num [L, n_l, n_c]
      have h1 : eta2Of Fs Fsp j * (L : ℝ) < 1 := (Int.floor_eq_zero_iff.mp hfloor).2
      rw [hL512] at h1
      have heta2 : eta2Of Fs Fsp j < 1 / 512 := by linarith
      have heta : 1 - 1 / 512 < etaOf Fs Fsp j := by
        rw [eta2Of] at heta2
        linarith
      have hq : tOf Fsp j * (Fs : ℝ) = (nRaw Fs Fsp j : ℝ) + etaOf Fs Fsp j := by
        rw [etaOf_eq_fract Fs Fsp j hFs, nRaw_eq_floor, Int.fract]
        ring
      have hqle := tmul_le F Fs Fsp j hFs hFsp hj
      have hr : (1 : ℝ) / 512 ≤ (Fs : ℝ) / (Fsp : ℝ) := by
        rw [div_le_div_iff₀ (by norm_num : (0 : ℝ) < 512) (by exact_mod_cast hFsp)]
        have hcast : (Fsp : ℝ) ≤ ((L * Fs : ℕ) : ℝ) := by exact_mod_cast hratio
        push_cast at hcast
        rw [hL512] at hcast
        linarith
      have hn0R : (nRaw Fs Fsp j : ℝ) = (F : ℝ) - 1 := by
        have : ((nRaw Fs Fsp j : ℤ) : ℝ) = (((F : ℤ) - 1 : ℤ) : ℝ) := by
          exact_mod_cast congrArg (fun z : ℤ => (z : ℝ)) hn0F
        push_cast at this
        exact this
      linarith

theorem nRaw_c4 : nRaw 1 1024 1023 = 0 := by
  have ht : tOf 1024 1023 * ((1 : ℕ) : ℝ) = 1023 / 1024 := by norm_num [tOf]
  rw [nRaw, ht]
  exact rtz_eval (by norm_num) (by norm_num) (by norm_num)

theorem etaOf_c4 : etaOf 1 1024 1023 = 1023 / 1024 := by
  rw [etaOf, nRaw_c4, tOf]
  norm_num

theorem eta2Of_c4 : eta2Of 1 1024 1023 = 1 / 1024 := by
  rw [eta2Of, etaOf_c4]
  norm_num

theorem l2Of_c4 : l2Of 1 1024 1023 = 0 := by
  have hL : ((L : ℕ) : ℝ) = 512 := by norm_num [L, n_l, n_c]
  rw [l2Of, eta2Of_c4, hL]
  exact rtz_eval (by norm_num) (by norm_num) (by norm_num)

theorem extra_c4 : extra 1 1024 = 5 := by
  rw [extra, if_neg (by norm_num)]
  rfl

/-- C4 counterexample: with `F = 1` frame, `Fs = 1`, `Fsp = 1024` (an
upsampling ratio beyond `L = 512`, so `extra = N_z = 5` and
`x_len = 11`), the loop at output index `j = 1023` has `eta2 = 1/1024`,
hence `l = 0` for the right wing, whose loop then visits `i = 5` and
accesses `x[n + 1 + 5] = x[11]` — one past the end of the padded buffer.
The claim's bound `n + 1 + i < x_len` is false at this visited `i`. -/
theorem bi_bounds_refuted :
    1023 < y_len 1 1024 1 ∧
    extra 1 1024 = 5 ∧
    5 < wingCount (l2Of 1 1024 1023) ∧
    ¬ (nRaw 1 1024 1023 + (extra 1 1024 : ℤ) + 1 + (5 : ℕ) <
        (x_len 1 (extra 1 1024) : ℤ)) := by
  refine ⟨by norm_num [y_len], extra_c4, ?_, ?_⟩
  · rw [l2Of_c4, wingCount_zero_eq]
    norm_num
  · rw [nRaw_c4, extra_c4]
    norm_num [x_len]

theorem bi_bounds_amended_witness :
    (0 < 2 ∧ 0 < 2 ∧ 2 ≤ L * 2 ∧ 0 < y_len 4 2 2) ∧
    ((∀ i : ℕ, i < wingCount (lOf 2 2 0) →
      0 ≤ nRaw 2 2 0 + (extra 2 2 : ℤ) - i ∧
      nRaw 2 2 0 + (extra 2 2 : ℤ) - i < (x_len 4 (extra 2 2) : ℤ)) ∧
    (∀ i : ℕ, i < wingCount (l2Of 2 2 0) →
      0 ≤ nRaw 2 2 0 + (extra 2 2 : ℤ) + 1 + i ∧
      nRaw 2 2 0 + (extra 2 2 : ℤ) + 1 + i < (x_len 4 (extra 2 2) : ℤ))) :=
  ⟨⟨by norm_num, by norm_num, by norm_num [L, n_l, n_c], by norm_num [y_len]⟩,
    bi_bounds_amended 4 2 2 0 (by norm_num) (by norm_num) (by norm_num [L, n_l, n_c])
      (by norm_num [y_len])⟩
